import Mathlib

/-!
# Verification of the GoFileServer path-confinement and request-routing layer

Shallow embedding of `main.go`: the Go standard-library path helpers
(`filepath.Clean`, `filepath.Join`, `filepath.Rel`, `strings.HasPrefix`,
`strings.TrimPrefix`) are modelled on Lean `String`s (Unix separator `/`,
as the spec assumes), the filesystem is modelled as an association list
from path segments to nodes, and each HTTP handler is a pure function
from request data and filesystem state to a response, the successor
filesystem state, and the list of full paths it handed to filesystem
calls (its access trace).
-/

/-! ## Splitting a path into segments (the byte-level scan Go performs) -/

/-- Split a character list at every separator `/`; accumulator `cur` holds the
current segment reversed. Mirrors Go's byte-wise scanning of path elements. -/
def splitCharAux (cur : List Char) : List Char → List (List Char)
  | [] => [cur.reverse]
  | c :: cs => if c = '/' then cur.reverse :: splitCharAux [] cs else splitCharAux (c :: cur) cs

/-- The segments of a path string, splitting at `/`. -/
def splitSegs (s : String) : List String := (splitCharAux [] s.data).map String.mk

/-- Render a segment list back to a path string with `/` separators. -/
def renderSegs : List String → String
  | [] => ""
  | [s] => s
  | s :: rest => s ++ "/" ++ renderSegs rest

/-! ## filepath.Clean (Unix rules) -/

/-- One step of Go's `filepath.Clean`: push a path element onto the stack of
already-output elements (head = innermost). Empty and `.` elements are
dropped; `..` pops a poppable element, is dropped at the root of a rooted
path, and otherwise accumulates. -/
def cleanPush (rooted : Bool) (stack : List String) (c : String) : List String :=
  if c = "" || c = "." then stack
  else if c = ".." then
    match stack with
    | [] => if rooted then [] else [".."]
    | top :: rest => if top = ".." then ".." :: top :: rest else rest
  else c :: stack

/-- The cleaned element list of a path, in order. -/
def cleanSegs (rooted : Bool) (cs : List String) : List String :=
  (cs.foldl (cleanPush rooted) []).reverse

/-- Model of Go `filepath.Clean` for Unix separators. -/
def goClean (s : String) : String :=
  let rooted := decide (s.data.head? = some '/')
  let segs := cleanSegs rooted (splitSegs s)
  if segs.isEmpty then (if rooted then "/" else ".")
  else (if rooted then "/" else "") ++ renderSegs segs

/-! ## filepath.Join -/

/-- Model of Go `filepath.Join`: drop leading empty elements, join the rest
with `/`, and Clean the result; all-empty input yields `""`. -/
def goJoinList (parts : List String) : String :=
  match parts.dropWhile (fun p => p = "") with
  | [] => ""
  | ne => goClean (renderSegs ne)

/-- Two-argument `filepath.Join`. -/
def goJoin (a b : String) : String := goJoinList [a, b]

/-! ## strings.HasPrefix / strings.TrimPrefix -/

/-- Model of Go `strings.HasPrefix`. -/
def strHasPre (s pre : String) : Bool := pre.data.isPrefixOf s.data

/-- Model of Go `strings.TrimPrefix`. -/
def strTrimPre (s pre : String) : String :=
  if strHasPre s pre then String.mk (s.data.drop pre.data.length) else s

/-- Model of Go `strings.HasSuffix`. -/
def strHasSuf (s suf : String) : Bool := suf.data.isSuffixOf s.data

/-- Split a character list at every slash or backslash, the separators of
net/http's `containsDotDot` field walk. -/
def splitAnyAux (cur : List Char) : List Char → List (List Char)
  | [] => [cur.reverse]
  | c :: cs =>
    if c = '/' ∨ c = '\\' then cur.reverse :: splitAnyAux [] cs else splitAnyAux (c :: cur) cs

/-- Model of net/http's `containsDotDot`: some slash- or
backslash-separated field of the URL path equals `..`. -/
def containsDotDot (s : String) : Bool :=
  ((splitAnyAux [] s.data).map String.mk).contains ".."

/-! ## filepath.Rel (Unix rules, no volume names) -/

/-- Length of the longest common prefix of two element lists. -/
def commonLen : List String → List String → Nat
  | a :: as, b :: bs => if a = b then commonLen as bs + 1 else 0
  | _, _ => 0

/-- The element-walk of Go `filepath.Rel` after both paths are cleaned and
de-rooted: strip the common element prefix; fail if the first remaining base
element is `..`; otherwise climb with `..` for every remaining base element
and descend into the remaining target elements. -/
def relSegsFn (bs ts : List String) : Option String :=
  let n := commonLen bs ts
  match bs.drop n with
  | [] => some (renderSegs (ts.drop n))
  | b₀ :: rest =>
    if b₀ = ".." then none
    else some (renderSegs (List.replicate (rest.length + 1) ".." ++ ts.drop n))

/-- Drop the leading character of a string (used to strip the root slash). -/
def strDropHead (s : String) : String := String.mk s.data.tail

/-- Model of Go `filepath.Rel` on Unix (no volume names): Clean both paths,
answer `.` for equal paths, refuse to relate a rooted and an unrooted path,
and otherwise walk the elements. -/
def goRel (basepath targpath : String) : Option String :=
  let base := goClean basepath
  let targ := goClean targpath
  if targ = base then some "."
  else
    let base := if base = "." then "" else base
    let baseSlashed := decide (base.data.head? = some '/')
    let targSlashed := decide (targ.data.head? = some '/')
    if baseSlashed ≠ targSlashed then none
    else
      let bStr := if baseSlashed then strDropHead base else base
      let tStr := if targSlashed then strDropHead targ else targ
      let bs := if bStr = "" then [] else splitSegs bStr
      let ts := if tStr = "" then [] else splitSegs tStr
      relSegsFn bs ts

-- sanity checks against documented Go behaviour (scratch)
example : goClean "" = "." := by decide
example : goClean "/../../etc" = "/etc" := by decide
example : goClean "uploads/../../etc" = "../etc" := by decide
example : goClean "a//b/./c/.." = "a/b" := by decide
example : goJoin "./uploads" "/etc" = "uploads/etc" := by decide
example : goJoin "./uploads" "" = "uploads" := by decide
example : goRel "./uploads" "uploads/etc" = some "etc" := by decide
example : goRel "./uploads" "../etc" = some "../../etc" := by decide
example : goRel "./uploads" "uploads" = some "." := by decide
example : goRel "/a/b" "/a" = some ".." := by decide
example : goRel "a" "/b" = none := by decide
example : strTrimPre "/download/x/y" "/download" = "/x/y" := by decide

/-! ## Filesystem model

A filesystem is an association list from full-path segment lists to nodes.
Directory-entry metadata that the handlers merely copy through
(`ModTime`, a directory's on-disk size) is environment-dependent and not
modelled; a file node carries its byte size. -/

/-- A filesystem node: a regular file with its byte size, or a directory. -/
inductive FsNode where
  | file (size : Nat)
  | dir
deriving DecidableEq, Repr

/-- Filesystem state: keys are full paths as segment lists. -/
abbrev Fs := List (List String × FsNode)

/-- Look up the node stored at a path key (first binding wins). -/
def lookupFs : Fs → List String → Option FsNode
  | [], _ => none
  | (k', n) :: rest, k => if k' = k then some n else lookupFs rest k

/-- The immediate children of a directory key: every binding exactly one
segment below it. This is the entry list `os.ReadDir` reports. -/
def childrenOf (fs : Fs) (k : List String) : List (String × FsNode) :=
  fs.filterMap fun e =>
    if e.1.take k.length = k then
      match e.1.drop k.length with
      | [n] => some (n, e.2)
      | _ => none
    else none

/-- Error cases of `os.ReadDir` distinguished by the listing handler:
`os.IsNotExist` versus any other failure (e.g. the path is a file). -/
inductive ReadDirErr where
  | notExist
  | other
deriving DecidableEq, Repr

/-- Model of `os.ReadDir`: fails with `notExist` when nothing is at the
path, with `other` when the path is a regular file. -/
def readDirFs (fs : Fs) (k : List String) : Except ReadDirErr (List (String × FsNode)) :=
  match lookupFs fs k with
  | some .dir => .ok (childrenOf fs k)
  | some (.file _) => .error .other
  | none => .error .notExist

/-- Model of `os.MkdirAll`, walking down from `done`: each missing ancestor
is created as a directory; an ancestor that exists as a regular file is an
error; existing directories are accepted silently. -/
def mkdirFrom : Fs → List String → List String → Option Fs
  | fs, _, [] => some fs
  | fs, done, c :: rs =>
    match lookupFs fs (done ++ [c]) with
    | some (.file _) => none
    | some .dir => mkdirFrom fs (done ++ [c]) rs
    | none => mkdirFrom (((done ++ [c]), FsNode.dir) :: fs) (done ++ [c]) rs

/-- Model of `os.MkdirAll` from the filesystem root. -/
def mkdirAll (fs : Fs) (p : List String) : Option Fs := mkdirFrom fs [] p

/-- Model of `os.Create` followed by a full `io.Copy`: overwrites any regular
file at the path; fails if the path is a directory or its parent is not an
existing directory. -/
def createFile (fs : Fs) (k : List String) (size : Nat) : Option Fs :=
  if lookupFs fs k = some FsNode.dir then none
  else if k.dropLast ≠ [] ∧ lookupFs fs k.dropLast ≠ some FsNode.dir then none
  else some ((k, FsNode.file size) :: fs)

/-! ## Requests and responses -/

/-- HTTP methods the routed handlers distinguish. -/
inductive Method where
  | get
  | post
  | put
  | delete
  | head
deriving DecidableEq, Repr

/-- One record of the JSON listing (`File` in the source); the `updated_at`
string is environment-dependent and not modelled. -/
structure FileEntry where
  name : String
  path : String
  isDir : Bool
  size : Nat
deriving DecidableEq, Repr

/-- A JSON response of the API handlers: `sendJSONError` output with its
status code, a successful listing, or a success `ResponseMessage`. -/
inductive JsonResp where
  | err (status : Nat) (msg : String)
  | filesOk (path : String) (files : List FileEntry)
  | msgOk (message : String)
deriving DecidableEq, Repr

/-- Output of a state-changing handler: response, successor filesystem, and
the full paths passed to filesystem calls, in order. -/
structure HOut where
  resp : JsonResp
  fs : Fs
  touched : List String
deriving DecidableEq, Repr

/-- The storage-root constant of the source (`uploadPath = "./uploads"`). -/
def uploadPath : String := "./uploads"

/-- The bound `32 << 20` the source passes to `ParseMultipartForm`. -/
def maxUploadSize : Nat := 32 <<< 20

/-- Lexical confinement to the storage root: the path's first segment is the
`uploads` directory and no `..` segment occurs anywhere in it. -/
def withinRootB (p : String) : Bool :=
  (splitSegs p).head? == some "uploads" && !((splitSegs p).contains "..")

/-! ## GET /api/files (handleAPIFiles) -/

/-- The listing handler's effective logical path: missing/empty `path` query
means the root. -/
def apiFilesDirPath (pathQ : String) : String := if pathQ = "" then "/" else pathQ

/-- The full path the listing handler forms:
`filepath.Join(uploadPath, filepath.Clean(dirPath))`. -/
def apiFilesFullPath (pathQ : String) : String :=
  goJoin uploadPath (goClean (apiFilesDirPath pathQ))

/-- Model of `handleAPIFiles`. Faithful to the source, it performs no method
check (the `method` argument is ignored). Returns the response and the list
of full paths given to filesystem calls. -/
def handleAPIFiles (fs : Fs) (_method : Method) (pathQ : String) : JsonResp × List String :=
  match goRel uploadPath (apiFilesFullPath pathQ) with
  | none => (.err 400 "Invalid path", [])
  | some relPath =>
    if strHasPre relPath ".." then (.err 400 "Invalid path", [])
    else
      match readDirFs fs (splitSegs (apiFilesFullPath pathQ)) with
      | .error .notExist => (.filesOk (apiFilesDirPath pathQ) [], [apiFilesFullPath pathQ])
      | .error .other => (.err 500 "Failed to read directory", [apiFilesFullPath pathQ])
      | .ok entries =>
        (.filesOk (apiFilesDirPath pathQ) (entries.map fun e =>
          match e.2 with
          | .dir =>
            { name := e.1, path := goJoin (apiFilesDirPath pathQ) e.1, isDir := true, size := 0 }
          | .file sz =>
            { name := e.1, path := goJoin (apiFilesDirPath pathQ) e.1, isDir := false, size := sz }),
         [apiFilesFullPath pathQ])

/-! ## POST /api/upload (handleAPIUpload) -/

/-- The data of an upload request: total multipart stream size, whether
the multipart stream parses (its syntax is well-formed), the `path` form
value (`""` when absent), and the `file` part (filename and byte count)
when present. -/
structure UploadRequest where
  bodySize : Nat
  wellFormed : Bool
  pathField : String
  filePart : Option (String × Nat)
deriving DecidableEq, Repr

/-- Model of `r.ParseMultipartForm(32 << 20)`. The `maxMemory` argument
only bounds in-memory buffering: file parts larger than it are spooled to
temporary files and parsing succeeds, so parsing fails only when the
multipart stream is malformed. Despite the source comment ("32 << 20
specifies a maximum upload of 32 MB"), the call enforces no ceiling on the
stream size. -/
def parseMultipartFormOk (_maxMem : Nat) (req : UploadRequest) : Bool :=
  req.wellFormed

/-- The upload handler's effective target directory path. -/
def uploadDirPath (req : UploadRequest) : String :=
  if req.pathField = "" then "/" else req.pathField

/-- The full directory path the upload handler forms — note the source
applies no confinement check to it. -/
def uploadFullDirPath (req : UploadRequest) : String :=
  goJoin uploadPath (goClean (uploadDirPath req))

/-- The full path of the uploaded file: `filepath.Join(fullDirPath,
handler.Filename)`, the filename used verbatim. -/
def uploadFullFilePath (req : UploadRequest) (fname : String) : String :=
  goJoin (uploadFullDirPath req) fname

/-- Model of `handleAPIUpload`: method check, multipart parse, `MkdirAll` on
the joined directory path, then fetch the `file` part and write
`fullDirPath/filename`. Faithful to the source, no confinement check is
performed on either path. -/
def handleAPIUpload (fs : Fs) (method : Method) (req : UploadRequest) : HOut :=
  if method ≠ Method.post then ⟨.err 405 "Method not allowed", fs, []⟩
  else if !parseMultipartFormOk (32 <<< 20) req then ⟨.err 400 "Failed to parse form", fs, []⟩
  else
    match mkdirAll fs (splitSegs (uploadFullDirPath req)) with
    | none => ⟨.err 500 "Failed to create directory", fs, [uploadFullDirPath req]⟩
    | some fs₁ =>
      match req.filePart with
      | none => ⟨.err 400 "Failed to get file from form", fs₁, [uploadFullDirPath req]⟩
      | some (fname, fsize) =>
        match createFile fs₁ (splitSegs (uploadFullFilePath req fname)) fsize with
        | none => ⟨.err 500 "Failed to create file on server", fs₁,
            [uploadFullDirPath req, uploadFullFilePath req fname]⟩
        | some fs₂ =>
          ⟨.msgOk ("File uploaded successfully to " ++ goJoin (uploadDirPath req) fname), fs₂,
           [uploadFullDirPath req, uploadFullFilePath req fname]⟩

/-! ## POST /api/mkdir (handleAPIMkdir) -/

/-- The decoded JSON body of a mkdir request (absent fields decode to `""`);
`none` models a body that fails to decode. -/
structure MkdirBody where
  path : String
  name : String
deriving DecidableEq, Repr

/-- The full path the mkdir handler forms:
`filepath.Join(uploadPath, filepath.Clean(reqBody.Path), reqBody.Name)`. -/
def mkdirFullPath (b : MkdirBody) : String :=
  goJoinList [uploadPath, goClean b.path, b.name]

/-- Model of `handleAPIMkdir`: method check, body decode, non-empty name
check, confinement check on the joined path, then `MkdirAll`. -/
def handleAPIMkdir (fs : Fs) (method : Method) (body : Option MkdirBody) : HOut :=
  if method ≠ Method.post then ⟨.err 405 "Method not allowed", fs, []⟩
  else
    match body with
    | none => ⟨.err 400 "Invalid request", fs, []⟩
    | some b =>
      if b.name = "" then ⟨.err 400 "Directory name is required", fs, []⟩
      else
        match goRel uploadPath (mkdirFullPath b) with
        | none => ⟨.err 400 "Invalid path", fs, []⟩
        | some relPath =>
          if strHasPre relPath ".." then ⟨.err 400 "Invalid path", fs, []⟩
          else
            match mkdirAll fs (splitSegs (mkdirFullPath b)) with
            | none => ⟨.err 500 "Failed to create directory", fs, [mkdirFullPath b]⟩
            | some fs₁ =>
              ⟨.msgOk ("Directory '" ++ b.name ++ "' created successfully"), fs₁,
               [mkdirFullPath b]⟩

/-! ## GET /download/ (handleDownload) -/

/-- Responses of the download handler: a plain-text `http.Error`, the 302
redirect of `http.Redirect(.., StatusFound)`, streamed bytes of a regular
file, the 301 `localRedirect` that `http.ServeFile` issues for request
URLs ending in `/index.html`, or the generated index page it produces for
a directory without an index file (which streams no file's bytes). -/
inductive DlResp where
  | err (status : Nat) (msg : String)
  | redirect (location : String)
  | fileBytes (path : String) (size : Nat)
  | localRedirect (location : String)
  | dirIndex (path : String)
deriving DecidableEq, Repr

/-- Model of `http.ServeFile(w, r, path)` once the handler has Stat'ed the
target: a request URL whose slash-separated fields contain `..` is refused
with 400 "invalid URL path" (the routing mux canonicalizes such URLs away,
but the check is ServeFile's); a URL ending in `/index.html` is answered
with a local redirect to `./` before anything is opened; a regular file's
bytes are streamed; for a directory, the regular file `path/index.html` is
served in its place when present (a directory named `index.html` is
listed), and otherwise a generated index page is emitted. `ServeFile`
passes `redirect=false` to `serveFile`, so `FileServer`'s trailing-slash
canonicalization does not apply; cleaned full paths never end in `/`, so
Go's `TrimSuffix(name, "/")` is the identity here. -/
def serveFileModel (fs : Fs) (urlPath : String) (path : String) (node : FsNode) : DlResp :=
  if containsDotDot urlPath then .err 400 "invalid URL path"
  else if strHasSuf urlPath "/index.html" then .localRedirect "./"
  else
    match node with
    | .file sz => .fileBytes path sz
    | .dir =>
      match lookupFs fs (splitSegs (path ++ "/index.html")) with
      | some (.file sz) => .fileBytes (path ++ "/index.html") sz
      | some .dir => .dirIndex (path ++ "/index.html")
      | none => .dirIndex path

/-- The logical path of a download request:
`strings.TrimPrefix(r.URL.Path, "/download")`, empty meaning the root. -/
def downloadFilePath (urlPath : String) : String :=
  let fp := strTrimPre urlPath "/download"
  if fp = "" then "/" else fp

/-- The full path the download handler forms. -/
def downloadFullPath (urlPath : String) : String :=
  goJoin uploadPath (goClean (downloadFilePath urlPath))

/-- Model of `handleDownload`: method check, confinement check, `os.Stat`,
then directory redirect or `http.ServeFile`. -/
def handleDownload (fs : Fs) (method : Method) (urlPath : String) : DlResp × List String :=
  if method ≠ Method.get then (.err 405 "Method not allowed", [])
  else
    match goRel uploadPath (downloadFullPath urlPath) with
    | none => (.err 400 "Invalid path", [])
    | some relPath =>
      if strHasPre relPath ".." then (.err 400 "Invalid path", [])
      else
        match lookupFs fs (splitSegs (downloadFullPath urlPath)) with
        | none => (.err 404 "File not found", [downloadFullPath urlPath])
        | some info =>
          if info = FsNode.dir ∧ downloadFilePath urlPath ≠ "/" then
            (.redirect ("/?path=" ++ downloadFilePath urlPath), [downloadFullPath urlPath])
          else
            (serveFileModel fs urlPath (downloadFullPath urlPath) info,
             [downloadFullPath urlPath, downloadFullPath urlPath])

-- scratch sanity checks on the handlers
example : handleAPIFiles [] Method.get "/../../etc" = (.filesOk "/../../etc" [], ["uploads/etc"]) := by decide
example : handleAPIFiles [] Method.get "../../etc" = (.err 400 "Invalid path", []) := by decide
example : handleAPIFiles [] Method.post "" = (.filesOk "/" [], ["uploads"]) := by decide
example : handleAPIFiles [] Method.get "/..hidden" = (.err 400 "Invalid path", []) := by decide
example :
    handleAPIUpload [] Method.post ⟨1, true, "../../evil", some ("a.txt", 1)⟩ =
      ⟨.msgOk "File uploaded successfully to ../../evil/a.txt",
       [(["..", "evil", "a.txt"], .file 1), (["..", "evil"], .dir), ([".."], .dir)],
       ["../evil", "../evil/a.txt"]⟩ := by decide
example :
    handleAPIMkdir [] Method.post (some ⟨"/", "docs"⟩) =
      ⟨.msgOk "Directory 'docs' created successfully",
       [(["uploads", "docs"], .dir), (["uploads"], .dir)], ["uploads/docs"]⟩ := by decide
example :
    handleDownload [(["uploads", "docs"], .dir), (["uploads"], .dir)] Method.get "/download/docs" =
      (.redirect "/?path=/docs", ["uploads/docs"]) := by decide
example :
    handleDownload [(["uploads", "a.txt"], .file 10), (["uploads"], .dir)] Method.get "/download/a.txt" =
      (.fileBytes "uploads/a.txt" 10, ["uploads/a.txt", "uploads/a.txt"]) := by decide
example :
    handleDownload [(["uploads"], .dir)] Method.get "/download/" =
      (.dirIndex "uploads", ["uploads", "uploads"]) := by decide
example : handleDownload [] Method.get "/download/x" = (.err 404 "File not found", ["uploads/x"]) := by decide

/-! ## Structural lemmas about segment splitting and rendering -/

theorem splitCharAux_of_no_sep (l : List Char) (cur : List Char) (h : '/' ∉ l) :
    splitCharAux cur l = [cur.reverse ++ l] := by
  induction l generalizing cur with
  | nil => simp [splitCharAux]
  | cons c cs ih =>
    have hc : ¬(c = '/') := fun e => h (by simp [e])
    rw [splitCharAux, if_neg hc, ih (c :: cur) (fun hm => h (by simp [hm]))]
    simp

theorem splitCharAux_append_sep (l r : List Char) (cur : List Char) (h : '/' ∉ l) :
    splitCharAux cur (l ++ '/' :: r) = (cur.reverse ++ l) :: splitCharAux [] r := by
  induction l generalizing cur with
  | nil => simp [splitCharAux]
  | cons c cs ih =>
    have hc : ¬(c = '/') := fun e => h (by simp [e])
    rw [List.cons_append, splitCharAux, if_neg hc, ih (c :: cur) (fun hm => h (by simp [hm]))]
    simp

theorem splitCharAux_no_sep_mem (cs : List Char) (cur : List Char) (hcur : '/' ∉ cur) :
    ∀ l ∈ splitCharAux cur cs, '/' ∉ l := by
  induction cs generalizing cur with
  | nil =>
    intro l hl
    simp [splitCharAux] at hl
    subst hl
    simpa using hcur
  | cons c cs ih =>
    intro l hl
    by_cases hc : c = '/'
    · rw [splitCharAux, if_pos hc] at hl
      rcases List.mem_cons.1 hl with h1 | h2
      · subst h1; simpa using hcur
      · exact ih [] (by simp) l h2
    · rw [splitCharAux, if_neg hc] at hl
      refine ih (c :: cur) ?_ l hl
      intro hm
      rcases List.mem_cons.1 hm with h1 | h2
      · exact hc h1.symm
      · exact hcur h2

theorem splitSegs_no_sep (s : String) : ∀ t ∈ splitSegs s, '/' ∉ t.data := by
  intro t ht
  simp only [splitSegs, List.mem_map] at ht
  obtain ⟨l, hl, rfl⟩ := ht
  exact splitCharAux_no_sep_mem s.data [] (by simp) l hl

theorem splitSegs_ne_nil (s : String) : splitSegs s ≠ [] := by
  have : ∀ cs cur, splitCharAux cur cs ≠ [] := by
    intro cs
    induction cs with
    | nil => intro cur; simp [splitCharAux]
    | cons c cs ih =>
      intro cur
      by_cases hc : c = '/'
      · rw [splitCharAux, if_pos hc]; simp
      · rw [splitCharAux, if_neg hc]; exact ih (c :: cur)
  simp only [splitSegs, ne_eq, List.map_eq_nil_iff]
  exact this s.data []

theorem str_ne_empty_iff (s : String) : s ≠ "" ↔ s.data ≠ [] := by
  constructor
  · intro h hd
    exact h (String.ext (by simpa using hd))
  · intro h he
    exact h (by simp [he])

theorem renderSegs_data_cons (s t : String) (rest : List String) :
    (renderSegs (s :: t :: rest)).data = s.data ++ '/' :: (renderSegs (t :: rest)).data := by
  show (s ++ "/" ++ renderSegs (t :: rest)).data = _
  simp [String.data_append]

theorem splitSegs_renderSegs (segs : List String) (hne : segs ≠ [])
    (h : ∀ s ∈ segs, '/' ∉ s.data) :
    splitSegs (renderSegs segs) = segs := by
  induction segs with
  | nil => exact absurd rfl hne
  | cons s rest ih =>
    cases rest with
    | nil =>
      show (splitCharAux [] (renderSegs [s]).data).map String.mk = [s]
      rw [show renderSegs [s] = s from rfl,
        splitCharAux_of_no_sep s.data [] (h s (by simp))]
      simp
    | cons t rest' =>
      show (splitCharAux [] (renderSegs (s :: t :: rest')).data).map String.mk = _
      rw [renderSegs_data_cons,
        splitCharAux_append_sep s.data _ [] (h s (by simp))]
      simp only [List.reverse_nil, List.nil_append, List.map_cons]
      have := ih (by simp) (fun x hx => h x (List.mem_cons_of_mem s hx))
      simp only [splitSegs] at this
      rw [this]

/-! ## Shape of cleaned element lists -/

/-- A plain path element: non-empty, not `.`, not `..`, no separator. -/
def GoodName (s : String) : Prop := s ≠ "" ∧ s ≠ "." ∧ s ≠ ".." ∧ '/' ∉ s.data

/-- Invariant of the `cleanPush` stack: some plain elements on top of a block
of `..` elements. -/
def GoodStack (st : List String) : Prop :=
  ∃ ns k, st = ns ++ List.replicate k ".." ∧ ∀ s ∈ ns, GoodName s

theorem goodStack_nil : GoodStack [] := ⟨[], 0, rfl, by simp⟩

theorem goodStack_push (rooted : Bool) (st : List String) (c : String)
    (hst : GoodStack st) (hc : '/' ∉ c.data) : GoodStack (cleanPush rooted st c) := by
  obtain ⟨ns, k, rfl, hns⟩ := hst
  by_cases h0 : c = "" ∨ c = "."
  · have : (c = "" || c = ".") = true := by rcases h0 with h | h <;> simp [h]
    rw [cleanPush.eq_def, if_pos this]
    exact ⟨ns, k, rfl, hns⟩
  · have h0' : (c = "" || c = ".") = false := by
      simp only [Bool.or_eq_false_iff, decide_eq_false_iff_not]
      exact ⟨fun h => h0 (Or.inl h), fun h => h0 (Or.inr h)⟩
    by_cases h1 : c = ".."
    · rw [cleanPush.eq_def, if_neg (by simp [h0']), if_pos h1]
      cases hst : ns ++ List.replicate k ".." with
      | nil =>
        cases rooted
        · exact ⟨[], 1, rfl, by simp⟩
        · exact goodStack_nil
      | cons top rest =>
        by_cases ht : top = ".."
        · have hns0 : ns = [] := by
            cases ns with
            | nil => rfl
            | cons n ns' =>
              simp only [List.cons_append, List.cons.injEq] at hst
              exact absurd (hst.1.trans ht) (hns n (by simp)).2.2.1
          show GoodStack (if top = ".." then ".." :: top :: rest else rest)
          rw [if_pos ht]
          refine ⟨[], k + 1, ?_, by simp⟩
          rw [hns0] at hst
          simp only [List.nil_append] at hst
          subst ht
          rw [List.nil_append, List.replicate_succ, ← hst]
        · have hk : ns ≠ [] := by
            intro hn
            rw [hn] at hst
            simp only [List.nil_append] at hst
            cases k with
            | zero => simp at hst
            | succ k' =>
              rw [List.replicate_succ] at hst
              exact ht (List.cons.injEq .. ▸ hst).1.symm
          show GoodStack (if top = ".." then ".." :: top :: rest else rest)
          rw [if_neg ht]
          cases ns with
          | nil => exact absurd rfl hk
          | cons n ns' =>
            simp only [List.cons_append, List.cons.injEq] at hst
            exact ⟨ns', k, hst.2.symm, fun s hs => hns s (by simp [hs])⟩
    · rw [cleanPush.eq_def, if_neg (by simp [h0']), if_neg h1]
      refine ⟨c :: ns, k, by simp, ?_⟩
      intro s hs
      rcases List.mem_cons.1 hs with h | h
      · subst h
        exact ⟨fun h => h0 (Or.inl h), fun h => h0 (Or.inr h), h1, hc⟩
      · exact hns s h

theorem goodStack_foldl (rooted : Bool) (xs : List String) (st : List String)
    (hst : GoodStack st) (hxs : ∀ s ∈ xs, '/' ∉ s.data) :
    GoodStack (xs.foldl (cleanPush rooted) st) := by
  induction xs generalizing st with
  | nil => exact hst
  | cons x xs ih =>
    exact ih (cleanPush rooted st x)
      (goodStack_push rooted st x hst (hxs x (by simp)))
      (fun s hs => hxs s (by simp [hs]))

/-! ## Cleaning is the identity on already-cleaned element lists -/

theorem cleanPush_name (rooted : Bool) (st : List String) (n : String) (hn : GoodName n) :
    cleanPush rooted st n = n :: st := by
  rw [cleanPush.eq_def, if_neg (by simp [hn.1, hn.2.1]), if_neg hn.2.2.1]

theorem foldl_push_names (rooted : Bool) (names : List String) (st : List String)
    (h : ∀ s ∈ names, GoodName s) :
    names.foldl (cleanPush rooted) st = names.reverse ++ st := by
  induction names generalizing st with
  | nil => simp
  | cons n rest ih =>
    rw [List.foldl_cons, cleanPush_name rooted st n (h n (by simp)),
      ih (n :: st) (fun s hs => h s (by simp [hs]))]
    simp

theorem foldl_push_dots (k j : Nat) :
    (List.replicate k "..").foldl (cleanPush false) (List.replicate j "..") =
      List.replicate (k + j) ".." := by
  induction k generalizing j with
  | zero => simp
  | succ k' ih =>
    rw [List.replicate_succ, List.foldl_cons]
    have hstep : cleanPush false (List.replicate j "..") ".." = List.replicate (j + 1) ".." := by
      cases j with
      | zero => rw [cleanPush.eq_def]; simp
      | succ j' =>
        rw [List.replicate_succ, cleanPush.eq_def]
        simp [List.replicate_succ]
    rw [hstep, ih (j + 1)]
    congr 1
    omega

theorem cleanSegs_shape (k : Nat) (names : List String) (h : ∀ s ∈ names, GoodName s) :
    cleanSegs false (List.replicate k ".." ++ names) = List.replicate k ".." ++ names := by
  rw [cleanSegs, List.foldl_append]
  rw [show (List.replicate k "..").foldl (cleanPush false) [] = List.replicate k ".." by
    simpa using foldl_push_dots k 0]
  rw [foldl_push_names false names (List.replicate k "..") h]
  simp

theorem shape_elem_ok (k : Nat) (names : List String) (h : ∀ s ∈ names, GoodName s) :
    ∀ s ∈ List.replicate k ".." ++ names, s.data ≠ [] ∧ '/' ∉ s.data := by
  intro s hs
  rcases List.mem_append.1 hs with hd | hn
  · rw [List.eq_of_mem_replicate hd]
    exact ⟨by simp, by decide⟩
  · exact ⟨(str_ne_empty_iff s).1 (h s hn).1, (h s hn).2.2.2⟩

theorem renderSegs_data_head (s : String) (rest : List String) (hs : s.data ≠ []) :
    (renderSegs (s :: rest)).data.head? = s.data.head? := by
  cases rest with
  | nil => rfl
  | cons t r =>
    rw [renderSegs_data_cons]
    cases hd : s.data with
    | nil => exact absurd hd hs
    | cons c cs => simp

theorem goClean_shape (segs : List String) (k : Nat) (names : List String)
    (hseg : segs = List.replicate k ".." ++ names)
    (h : ∀ s ∈ names, GoodName s) (hne : segs ≠ []) :
    goClean (renderSegs segs) = renderSegs segs := by
  have hok : ∀ s ∈ segs, s.data ≠ [] ∧ '/' ∉ s.data := hseg ▸ shape_elem_ok k names h
  obtain ⟨s₀, rest, rfl⟩ : ∃ s₀ rest, segs = s₀ :: rest := by
    cases segs with
    | nil => exact absurd rfl hne
    | cons a b => exact ⟨a, b, rfl⟩
  have hroot : decide ((renderSegs (s₀ :: rest)).data.head? = some '/') = false := by
    rw [decide_eq_false_iff_not, renderSegs_data_head s₀ rest (hok s₀ (by simp)).1]
    cases hd : s₀.data with
    | nil => exact absurd hd (hok s₀ (by simp)).1
    | cons c cs =>
      have : c ≠ '/' := fun e => (hok s₀ (by simp)).2 (by simp [hd, e])
      simp [this]
  have hsplit : splitSegs (renderSegs (s₀ :: rest)) = s₀ :: rest :=
    splitSegs_renderSegs _ (by simp) (fun s hs => (hok s hs).2)
  have hclean : cleanSegs false (s₀ :: rest) = s₀ :: rest := hseg ▸ cleanSegs_shape k names h
  rw [goClean]
  simp only [hroot, hsplit, Bool.false_eq_true, if_false, hclean]
  simp

theorem goJoin_eq_goClean_under_root (x : String) :
    goJoin uploadPath x = goClean ("./uploads/" ++ x) := by
  rw [goJoin, goJoinList]
  have hdw : [uploadPath, x].dropWhile (fun p => p = "") = uploadPath :: [x] := by
    rw [List.dropWhile_cons_of_neg]
    simp [uploadPath]
  rw [hdw]
  show goClean (uploadPath ++ "/" ++ x) = goClean ("./uploads/" ++ x)
  congr 1

/-! ## The shape of every full path the handlers form -/

theorem splitSegs_under_root (x : String) :
    splitSegs ("./uploads/" ++ x) = "." :: "uploads" :: splitSegs x := by
  have hd : ("./uploads/" ++ x).data = ['.'] ++ '/' :: ("uploads".data ++ '/' :: x.data) := by
    rw [String.data_append]
    rfl
  rw [splitSegs, hd, splitCharAux_append_sep _ _ _ (by decide),
    splitCharAux_append_sep _ _ _ (by decide)]
  simp only [List.reverse_nil, List.nil_append, List.map_cons]
  rfl

theorem under_root_stack (x : String) :
    GoodStack ((splitSegs x).foldl (cleanPush false) ["uploads"]) := by
  refine goodStack_foldl false (splitSegs x) ["uploads"] ⟨["uploads"], 0, by simp, ?_⟩
    (splitSegs_no_sep x)
  intro s hs
  rw [List.mem_singleton] at hs
  subst hs
  exact ⟨by decide, by decide, by decide, by decide⟩

theorem clean_under_root_cases (x : String) :
    goClean ("./uploads/" ++ x) = "." ∨
      ∃ k names, (∀ s ∈ names, GoodName s) ∧
        goClean ("./uploads/" ++ x) = renderSegs (List.replicate k ".." ++ names) ∧
        List.replicate k ".." ++ names ≠ [] := by
  have hd : ("./uploads/" ++ x).data.head? = some '.' := by
    rw [String.data_append]
    rfl
  have hroot : decide (("./uploads/" ++ x).data.head? = some '/') = false := by
    simp [hd]
  have hfold : cleanSegs false ("." :: "uploads" :: splitSegs x) =
      ((splitSegs x).foldl (cleanPush false) ["uploads"]).reverse := by
    rw [cleanSegs, List.foldl_cons, List.foldl_cons]
    rfl
  obtain ⟨ns, k, hS, hns⟩ := under_root_stack x
  have hsegs : cleanSegs false ("." :: "uploads" :: splitSegs x) =
      List.replicate k ".." ++ ns.reverse := by
    rw [hfold, hS]
    simp
  rw [goClean]
  simp only [hroot, Bool.false_eq_true, if_false, splitSegs_under_root, hsegs]
  by_cases hemp : List.replicate k ".." ++ ns.reverse = []
  · left
    rw [hemp]
    rfl
  · right
    refine ⟨k, ns.reverse, fun s hs => hns s (List.mem_reverse.1 hs), ?_, hemp⟩
    rw [if_neg (by simpa [List.isEmpty_iff] using hemp)]
    exact String.empty_append _

/-! ## Evaluating filepath.Rel against the storage root -/

theorem goRel_uploads_eval (t : String) (hne : t ≠ "uploads")
    (hslash : decide (t.data.head? = some '/') = false) (htne : t ≠ "")
    (hfix : goClean t = t) :
    goRel uploadPath t = relSegsFn ["uploads"] (splitSegs t) := by
  unfold goRel
  rw [show goClean uploadPath = "uploads" from by decide, hfix]
  rw [if_neg hne]
  rw [if_neg (show ¬("uploads" : String) = "." from by decide)]
  simp only [hslash]
  simp [htne]
  rw [show splitSegs "uploads" = ["uploads"] from by decide]

theorem dotdot_isPre (l : List Char) : (['.', '.'] : List Char).isPrefixOf ('.' :: '.' :: l) = true := by
  simp [List.isPrefixOf]

theorem shape_render_not_rooted (segs : List String)
    (hok : ∀ s ∈ segs, s.data ≠ [] ∧ '/' ∉ s.data) (s₀ : String) (rest : List String)
    (hseg : segs = s₀ :: rest) :
    decide ((renderSegs segs).data.head? = some '/') = false := by
  subst hseg
  rw [decide_eq_false_iff_not, renderSegs_data_head s₀ rest (hok s₀ (by simp)).1]
  cases hdd : s₀.data with
  | nil => exact absurd hdd (hok s₀ (by simp)).1
  | cons c cs =>
    have : c ≠ '/' := fun e => (hok s₀ (by simp)).2 (by simp [hdd, e])
    simp [this]

theorem relSegsFn_mismatch (s₀ : String) (rest : List String) (h : s₀ ≠ "uploads") :
    relSegsFn ["uploads"] (s₀ :: rest) = some (renderSegs (".." :: s₀ :: rest)) := by
  rw [relSegsFn.eq_def]
  have hcl : commonLen ["uploads"] (s₀ :: rest) = 0 := by
    simp only [commonLen]
    rw [if_neg (fun e => h e.symm)]
  rw [hcl]
  simp

theorem goRel_rejects_nonroot (segs : List String) (k : Nat) (names : List String)
    (hseg : segs = List.replicate k ".." ++ names)
    (hn : ∀ s ∈ names, GoodName s) (hne : segs ≠ [])
    (hhead : segs.head? ≠ some "uploads") :
    ∃ r, goRel uploadPath (renderSegs segs) = some r ∧ strHasPre r ".." = true := by
  obtain ⟨s₀, rest, hcons⟩ : ∃ s₀ rest, segs = s₀ :: rest := by
    cases segs with
    | nil => exact absurd rfl hne
    | cons a b => exact ⟨a, b, rfl⟩
  have hok : ∀ s ∈ segs, s.data ≠ [] ∧ '/' ∉ s.data := hseg ▸ shape_elem_ok k names hn
  have hfix : goClean (renderSegs segs) = renderSegs segs := goClean_shape segs k names hseg hn hne
  have hsplit : splitSegs (renderSegs segs) = segs :=
    splitSegs_renderSegs segs hne (fun s hs => (hok s hs).2)
  have hs₀ : s₀ ≠ "uploads" := by
    intro e
    exact hhead (by rw [hcons, e]; rfl)
  have hpne : renderSegs segs ≠ "uploads" := by
    intro e
    have hsu : segs = ["uploads"] := by
      rw [← hsplit, e]
      decide
    rw [hsu] at hhead
    exact hhead rfl
  have hpdata : renderSegs segs ≠ "" := by
    rw [str_ne_empty_iff, hcons]
    intro hcontra
    have h0 := (hok s₀ (hcons ▸ List.mem_cons_self s₀ rest)).1
    cases rest with
    | nil => exact h0 hcontra
    | cons t r =>
      rw [renderSegs_data_cons] at hcontra
      simp at hcontra
  rw [goRel_uploads_eval (renderSegs segs) hpne
    (shape_render_not_rooted segs hok s₀ rest hcons) hpdata hfix, hsplit, hcons]
  rw [relSegsFn_mismatch s₀ rest hs₀]
  refine ⟨_, rfl, ?_⟩
  have hdata : (renderSegs (".." :: s₀ :: rest)).data =
      '.' :: '.' :: '/' :: (renderSegs (s₀ :: rest)).data := by
    rw [renderSegs_data_cons]
    rfl
  rw [strHasPre, hdata]
  exact dotdot_isPre _

theorem contains_dotdot_false (l : List String) (h : ∀ s ∈ l, s ≠ "..") :
    l.contains ".." = false := by
  induction l with
  | nil => rfl
  | cons a l ih =>
    have ha : (".." == a) = false := by
      rw [beq_eq_false_iff_ne]
      exact (h a (by simp)).symm
    simp only [List.contains_cons, ha, Bool.false_or]
    exact ih (fun s hs => h s (by simp [hs]))

theorem withinRootB_of_head_uploads (k : Nat) (names : List String)
    (hn : ∀ s ∈ names, GoodName s)
    (hhead : (List.replicate k ".." ++ names).head? = some "uploads") :
    withinRootB (renderSegs (List.replicate k ".." ++ names)) = true := by
  have hk : k = 0 := by
    cases k with
    | zero => rfl
    | succ k' =>
      rw [List.replicate_succ] at hhead
      simp at hhead
  subst hk
  simp only [List.replicate_zero, List.nil_append] at hhead ⊢
  have hnne : names ≠ [] := by
    intro e
    rw [e] at hhead
    exact Option.noConfusion hhead
  have hok : ∀ s ∈ names, s.data ≠ [] ∧ '/' ∉ s.data := by
    simpa using shape_elem_ok 0 names hn
  rw [withinRootB, splitSegs_renderSegs names hnne (fun s hs => (hok s hs).2), hhead]
  rw [contains_dotdot_false names (fun s hs => (hn s hs).2.2.1)]
  rfl

theorem escape_rejected (x : String)
    (h : withinRootB (goClean ("./uploads/" ++ x)) = false) :
    ∃ r, goRel uploadPath (goClean ("./uploads/" ++ x)) = some r ∧ strHasPre r ".." = true := by
  rcases clean_under_root_cases x with hdot | ⟨k, names, hn, hp, hne⟩
  · rw [hdot]
    exact ⟨"../.", by decide, by decide⟩
  · rw [hp] at h ⊢
    apply goRel_rejects_nonroot _ k names rfl hn hne
    intro hhead
    rw [withinRootB_of_head_uploads k names hn hhead] at h
    exact Bool.noConfusion h

/-! ## Properties of the MkdirAll model -/

theorem mkdirFrom_preserves (fs : Fs) (done rest : List String) (fs' : Fs)
    (h : mkdirFrom fs done rest = some fs') :
    ∀ k n, lookupFs fs k = some n → lookupFs fs' k = some n := by
  induction rest generalizing fs done with
  | nil =>
    rw [mkdirFrom] at h
    cases h
    exact fun k n hk => hk
  | cons c rs ih =>
    rw [mkdirFrom] at h
    cases hl : lookupFs fs (done ++ [c]) with
    | some node =>
      cases node with
      | file sz =>
        rw [hl] at h
        exact absurd h (by simp)
      | dir =>
        rw [hl] at h
        exact ih _ _ h
    | none =>
      rw [hl] at h
      intro k n hk
      refine ih _ _ h k n ?_
      have hne : done ++ [c] ≠ k := by
        intro e
        rw [e] at hl
        rw [hl] at hk
        exact Option.noConfusion hk
      rw [lookupFs, if_neg hne]
      exact hk

theorem mkdirFrom_creates (fs : Fs) (done rest : List String) (fs' : Fs)
    (h : mkdirFrom fs done rest = some fs') :
    ∀ i < rest.length, lookupFs fs' (done ++ rest.take (i + 1)) = some FsNode.dir := by
  induction rest generalizing fs done with
  | nil =>
    intro i hi
    simp at hi
  | cons c rs ih =>
    intro i hi
    cases hl : lookupFs fs (done ++ [c]) with
    | some node =>
      cases node with
      | file sz =>
        rw [mkdirFrom, hl] at h
        exact absurd h (by simp)
      | dir =>
        rw [mkdirFrom, hl] at h
        cases i with
        | zero =>
          simpa using mkdirFrom_preserves _ _ _ _ h (done ++ [c]) FsNode.dir hl
        | succ i' =>
          have hstep := ih _ _ h i' (by simpa using hi)
          simpa [List.append_assoc] using hstep
    | none =>
      rw [mkdirFrom, hl] at h
      cases i with
      | zero =>
        have hq : lookupFs ((done ++ [c], FsNode.dir) :: fs) (done ++ [c]) = some FsNode.dir := by
          simp [lookupFs]
        simpa using mkdirFrom_preserves _ _ _ _ h (done ++ [c]) FsNode.dir hq
      | succ i' =>
        have hstep := ih _ _ h i' (by simpa using hi)
        simpa [List.append_assoc] using hstep

theorem mkdirFrom_idem (fs : Fs) (done rest : List String)
    (h : ∀ i < rest.length, lookupFs fs (done ++ rest.take (i + 1)) = some FsNode.dir) :
    mkdirFrom fs done rest = some fs := by
  induction rest generalizing done with
  | nil => rfl
  | cons c rs ih =>
    have h0 : lookupFs fs (done ++ [c]) = some FsNode.dir := by
      simpa using h 0 (by simp)
    rw [mkdirFrom, h0]
    refine ih (done ++ [c]) (fun i hi => ?_)
    have := h (i + 1) (by simpa using hi)
    simpa [List.append_assoc] using this

theorem mkdirAll_idem (fs fs' : Fs) (p : List String) (h : mkdirAll fs p = some fs') :
    mkdirAll fs' p = some fs' :=
  mkdirFrom_idem fs' [] p (fun i hi => by simpa using mkdirFrom_creates fs [] p fs' h i hi)

theorem mkdirAll_lookup (fs fs' : Fs) (p : List String) (h : mkdirAll fs p = some fs')
    (hne : p ≠ []) : lookupFs fs' p = some FsNode.dir := by
  have hlen : 0 < p.length := List.length_pos.2 hne
  have := mkdirFrom_creates fs [] p fs' h (p.length - 1) (by omega)
  have htake : p.take (p.length - 1 + 1) = p := by
    rw [show p.length - 1 + 1 = p.length from by omega]
    exact List.take_length _  -- name check
  rw [htake] at this
  simpa using this

/-! ## Guard-pass implies confinement -/

theorem within_of_guard_pass (x : String) (r : String)
    (hrel : goRel uploadPath (goClean ("./uploads/" ++ x)) = some r)
    (hpre : strHasPre r ".." = false) :
    withinRootB (goClean ("./uploads/" ++ x)) = true := by
  cases hb : withinRootB (goClean ("./uploads/" ++ x)) with
  | true => rfl
  | false =>
    obtain ⟨r', hr', hp'⟩ := escape_rejected x hb
    rw [hrel] at hr'
    rw [Option.some.injEq] at hr'
    rw [hr', hp'] at hpre
    exact Bool.noConfusion hpre

theorem goJoinList3_eq (y z : String) :
    goJoinList [uploadPath, y, z] = goClean ("./uploads/" ++ (y ++ "/" ++ z)) := by
  rw [goJoinList]
  have hdw : [uploadPath, y, z].dropWhile (fun p => p = "") = uploadPath :: [y, z] := by
    rw [List.dropWhile_cons_of_neg]
    simp [uploadPath]
  rw [hdw]
  rfl

/-! ## Claim theorems -/

/-- C2 counterexample: the end-to-end scenario `GET /api/files?path=/../../etc`
does not return `{success:false, error:"Invalid path"}` with status 400;
`filepath.Clean` collapses the leading `..` segments against `/`, the request
passes the confinement guard as `uploads/etc`, and (on a filesystem without
that directory) the handler answers with a successful empty listing. -/
theorem listing_rooted_traversal_not_rejected :
    handleAPIFiles [] Method.get "/../../etc" = (.filesOk "/../../etc" [], ["uploads/etc"])
    ∧ (handleAPIFiles [] Method.get "/../../etc").1 ≠ .err 400 "Invalid path" := by
  constructor
  · decide
  · decide

/-- C2 (amended): a listing request whose resolved full path falls outside
StorageRoot lexically (it is not `uploads` or a descendant) is rejected as a
client error `{success:false, error:"Invalid path"}` with status 400 and no
filesystem call; this covers every `..` traversal that survives
normalization. Traversals encoded with a leading separator are collapsed by
normalization to paths inside StorageRoot and are not rejected. -/
theorem listing_escaping_resolution_rejected (fs : Fs) (m : Method) (q : String)
    (h : withinRootB (apiFilesFullPath q) = false) :
    handleAPIFiles fs m q = (.err 400 "Invalid path", []) := by
  have hb := goJoin_eq_goClean_under_root (goClean (apiFilesDirPath q))
  have h' : withinRootB (goClean ("./uploads/" ++ goClean (apiFilesDirPath q))) = false := by
    rw [← hb]
    exact h
  obtain ⟨r, hr, hp⟩ := escape_rejected _ h'
  have hr' : goRel uploadPath (apiFilesFullPath q) = some r := by
    rw [apiFilesFullPath, hb]
    exact hr
  simp only [handleAPIFiles, hr']
  rw [if_pos (by simp [hp])]

/-- Witness for the amended C2 at the concrete traversal `../../etc`. -/
theorem listing_escaping_resolution_rejected_w :
    handleAPIFiles [] Method.get "../../etc" = (.err 400 "Invalid path", []) :=
  listing_escaping_resolution_rejected [] Method.get "../../etc" (by decide)

/-- C5: listing a validated logical path whose directory does not exist on
disk answers `{success:true, files:[]}` rather than an error, and a read
failure other than non-existence (the path names a regular file) answers an
internal 500 error. -/
theorem missing_dir_lists_empty (fs : Fs) (m : Method) (q : String) (r : String)
    (h : goRel uploadPath (apiFilesFullPath q) = some r)
    (hp : strHasPre r ".." = false) :
    (lookupFs fs (splitSegs (apiFilesFullPath q)) = none →
      handleAPIFiles fs m q = (.filesOk (apiFilesDirPath q) [], [apiFilesFullPath q]))
    ∧ (∀ sz, lookupFs fs (splitSegs (apiFilesFullPath q)) = some (.file sz) →
      handleAPIFiles fs m q = (.err 500 "Failed to read directory", [apiFilesFullPath q])) := by
  constructor
  · intro hl
    simp only [handleAPIFiles, h]
    rw [if_neg (by simp [hp])]
    simp [readDirFs, hl]
  · intro sz hl
    simp only [handleAPIFiles, h]
    rw [if_neg (by simp [hp])]
    simp [readDirFs, hl]

/-- Witness for C5: listing the never-created `/docs` on the empty
filesystem succeeds with an empty file list. -/
theorem missing_dir_lists_empty_w :
    handleAPIFiles [] Method.get "/docs" = (.filesOk "/docs" [], ["uploads/docs"]) :=
  (missing_dir_lists_empty [] Method.get "/docs" "docs" (by decide) (by decide)).1 (by decide)

/-- C6 counterexample: the logical path `/..hidden` stays within StorageRoot
(its lexical join is `uploads/..hidden`, a descendant of the root), yet the
listing handler rejects it with 400 `Invalid path`, because the guard
compares the two characters `..` against the relative path rather than a
parent-directory segment. -/
theorem confined_name_rejected :
    withinRootB (goJoin uploadPath (goClean "/..hidden")) = true
    ∧ handleAPIFiles [] Method.get "/..hidden" = (.err 400 "Invalid path", []) := by
  constructor
  · decide
  · decide

/-- C6 (amended): for every logical path whose relative position from
StorageRoot does not begin with the two characters `..`, resolution proceeds
and the only path handed to the filesystem is exactly the lexical join of
StorageRoot and the normalized logical path; an empty or missing logical
path is treated as the root `/`. Paths whose first relative segment merely
begins with the characters `..` (such as `..hidden`) are rejected even
though they stay within StorageRoot. -/
theorem resolve_confined_yields_join (fs : Fs) (m : Method) (q : String) (r : String)
    (h : goRel uploadPath (apiFilesFullPath q) = some r)
    (hp : strHasPre r ".." = false) :
    (handleAPIFiles fs m q).2 = [goJoin uploadPath (goClean (apiFilesDirPath q))]
    ∧ (∀ (fs' : Fs) (m' : Method), handleAPIFiles fs' m' "" = handleAPIFiles fs' m' "/") := by
  constructor
  · simp only [handleAPIFiles, h]
    rw [if_neg (by simp [hp])]
    cases readDirFs fs (splitSegs (apiFilesFullPath q)) with
    | error e => cases e <;> rfl
    | ok entries => rfl
  · intro fs' m'
    simp only [handleAPIFiles]
    rw [show apiFilesDirPath "" = apiFilesDirPath "/" from by decide,
      show apiFilesFullPath "" = apiFilesFullPath "/" from by decide]

/-- Witness for the amended C6 at the concrete path `/docs`. -/
theorem resolve_confined_yields_join_w :
    (handleAPIFiles [] Method.get "/docs").2 = ["uploads/docs"] := by
  have := (resolve_confined_yields_join [] Method.get "/docs" "docs" (by decide) (by decide)).1
  rw [this]
  decide

theorem files_touch_within (fs : Fs) (m : Method) (q : String) :
    ∀ p ∈ (handleAPIFiles fs m q).2, withinRootB p = true := by
  have hb : apiFilesFullPath q = goClean ("./uploads/" ++ goClean (apiFilesDirPath q)) :=
    goJoin_eq_goClean_under_root _
  cases hrel : goRel uploadPath (apiFilesFullPath q) with
  | none =>
    have htr : (handleAPIFiles fs m q).2 = [] := by
      simp only [handleAPIFiles, hrel]
    intro p hp
    rw [htr] at hp
    exact absurd hp (List.not_mem_nil p)
  | some r =>
    cases hpre : strHasPre r ".." with
    | true =>
      have htr : (handleAPIFiles fs m q).2 = [] := by
        simp only [handleAPIFiles, hrel]
        rw [if_pos hpre]
      intro p hp
      rw [htr] at hp
      exact absurd hp (List.not_mem_nil p)
    | false =>
      have htr : (handleAPIFiles fs m q).2 = [apiFilesFullPath q] := by
        simp only [handleAPIFiles, hrel]
        rw [if_neg (by simp [hpre])]
        cases readDirFs fs (splitSegs (apiFilesFullPath q)) with
        | error e => cases e <;> rfl
        | ok entries => rfl
      intro p hp
      rw [htr, List.mem_singleton] at hp
      rw [hp, hb]
      exact within_of_guard_pass _ r (by rw [← hb]; exact hrel) hpre

theorem mkdir_touch_within (fs : Fs) (m : Method) (b? : Option MkdirBody) :
    ∀ p ∈ (handleAPIMkdir fs m b?).touched, withinRootB p = true := by
  intro p hp
  by_cases hm : m = Method.post
  · cases b? with
    | none =>
      simp only [handleAPIMkdir.eq_def, if_neg (show ¬¬(m = Method.post) from not_not_intro hm)] at hp
      exact absurd hp (List.not_mem_nil p)
    | some b =>
      by_cases hn : b.name = ""
      · simp only [handleAPIMkdir.eq_def, if_neg (show ¬¬(m = Method.post) from not_not_intro hm),
          if_pos hn] at hp
        exact absurd hp (List.not_mem_nil p)
      · have hb : mkdirFullPath b =
            goClean ("./uploads/" ++ (goClean b.path ++ "/" ++ b.name)) := by
          rw [mkdirFullPath, goJoinList3_eq]
        cases hrel : goRel uploadPath (mkdirFullPath b) with
        | none =>
          simp only [handleAPIMkdir.eq_def, if_neg (show ¬¬(m = Method.post) from not_not_intro hm),
            if_neg hn, hrel] at hp
          exact absurd hp (List.not_mem_nil p)
        | some r =>
          simp only [handleAPIMkdir.eq_def, if_neg (show ¬¬(m = Method.post) from not_not_intro hm),
            if_neg hn, hrel] at hp
          cases hpre : strHasPre r ".." with
          | true =>
            rw [if_pos hpre] at hp
            exact absurd hp (List.not_mem_nil p)
          | false =>
            rw [if_neg (by simp [hpre])] at hp
            have hw : withinRootB (mkdirFullPath b) = true := by
              rw [hb]
              exact within_of_guard_pass _ r (by rw [← hb]; exact hrel) hpre
            have hone : p = mkdirFullPath b := by
              cases hmk : mkdirAll fs (splitSegs (mkdirFullPath b)) with
              | none =>
                rw [hmk] at hp
                exact (List.mem_singleton.1 hp)
              | some fs₁ =>
                rw [hmk] at hp
                exact (List.mem_singleton.1 hp)
            rw [hone]
            exact hw
  · simp only [handleAPIMkdir.eq_def, if_pos hm] at hp
    exact absurd hp (List.not_mem_nil p)

theorem download_touch_within (fs : Fs) (m : Method) (url : String) :
    ∀ p ∈ (handleDownload fs m url).2, withinRootB p = true := by
  intro p hp
  by_cases hm : m = Method.get
  · have hb : downloadFullPath url =
        goClean ("./uploads/" ++ goClean (downloadFilePath url)) :=
      goJoin_eq_goClean_under_root _
    cases hrel : goRel uploadPath (downloadFullPath url) with
    | none =>
      simp only [handleDownload.eq_def, if_neg (show ¬¬(m = Method.get) from not_not_intro hm),
        hrel] at hp
      exact absurd hp (List.not_mem_nil p)
    | some r =>
      simp only [handleDownload.eq_def, if_neg (show ¬¬(m = Method.get) from not_not_intro hm),
        hrel] at hp
      cases hpre : strHasPre r ".." with
      | true =>
        rw [if_pos hpre] at hp
        exact absurd hp (List.not_mem_nil p)
      | false =>
        rw [if_neg (by simp [hpre])] at hp
        have hw : withinRootB (downloadFullPath url) = true := by
          rw [hb]
          exact within_of_guard_pass _ r (by rw [← hb]; exact hrel) hpre
        have hone : p = downloadFullPath url := by
          cases hst : lookupFs fs (splitSegs (downloadFullPath url)) with
          | none =>
            rw [hst] at hp
            exact (List.mem_singleton.1 hp)
          | some info =>
            rw [hst] at hp
            have hp' : p ∈ (if info = FsNode.dir ∧ downloadFilePath url ≠ "/" then
                (DlResp.redirect ("/?path=" ++ downloadFilePath url), [downloadFullPath url])
              else (serveFileModel fs url (downloadFullPath url) info,
                [downloadFullPath url, downloadFullPath url])).2 := hp
            by_cases hdir : info = FsNode.dir ∧ downloadFilePath url ≠ "/"
            · rw [if_pos hdir] at hp'
              exact (List.mem_singleton.1 hp')
            · rw [if_neg hdir] at hp'
              rcases List.mem_cons.1 hp' with h1 | h2
              · exact h1
              · exact (List.mem_singleton.1 h2)
        rw [hone]
        exact hw
  · simp only [handleDownload.eq_def, if_pos hm] at hp
    exact absurd hp (List.not_mem_nil p)

/-- C3: in the listing, mkdir, and download handlers every filesystem call
(ReadDir, MkdirAll, Stat, ServeFile) receives only a full path that has
passed the confinement guard, so it is the `uploads` root or a lexical
descendant of it — these three handlers never touch a path outside
StorageRoot. -/
theorem handlers_touch_only_root (fs : Fs) (m : Method) (q : String)
    (b? : Option MkdirBody) (url : String) :
    (∀ p ∈ (handleAPIFiles fs m q).2, withinRootB p = true)
    ∧ (∀ p ∈ (handleAPIMkdir fs m b?).touched, withinRootB p = true)
    ∧ (∀ p ∈ (handleDownload fs m url).2, withinRootB p = true) :=
  ⟨files_touch_within fs m q, mkdir_touch_within fs m b?, download_touch_within fs m url⟩

/-- Witness for C3: the path the listing handler touches for `/docs` is
inside the storage root. -/
theorem handlers_touch_only_root_w : withinRootB "uploads/docs" = true :=
  (handlers_touch_only_root [] Method.get "/docs" none "/download/docs").1
    "uploads/docs" (by decide)

/-- C4 counterexample: `http.ServeFile` makes two of the claim's cases
false at reachable states. With a regular file uploads/index.html present
(it can be uploaded), downloading the root serves that file's bytes, so
file content is served for the root directory; and downloading that file
itself via /download/index.html answers a local redirect to `./` instead
of streaming its bytes. -/
theorem download_root_serves_index_bytes :
    handleDownload [(["uploads", "index.html"], FsNode.file 5), (["uploads"], FsNode.dir)]
        Method.get "/download/" =
      (.fileBytes "uploads/index.html" 5, ["uploads", "uploads"])
    ∧ handleDownload [(["uploads", "index.html"], FsNode.file 5), (["uploads"], FsNode.dir)]
        Method.get "/download/index.html" =
      (.localRedirect "./", ["uploads/index.html", "uploads/index.html"]) := by
  refine ⟨by decide, by decide⟩

/-- C4 (amended): for every validated download path — if nothing exists at
the target the response is 404; if the target is a directory and the
logical path is not the root, the response is a 302 redirect to the
browsing view scoped to that same logical path; a regular-file target is
streamed unless the request URL ends in `/index.html`, in which case
ServeFile answers a local redirect to `./`; for the root directory itself
ServeFile serves the bytes of the regular file uploads/index.html when it
exists, and otherwise emits a generated index page streaming no file's
bytes. (URL paths here are as delivered by the routing mux, which
canonicalizes away `..` fields, so ServeFile's own `..` rejection does not
fire.) -/
theorem download_dispatch_cases (fs : Fs) (url : String) (r : String)
    (h : goRel uploadPath (downloadFullPath url) = some r)
    (hp : strHasPre r ".." = false) :
    (lookupFs fs (splitSegs (downloadFullPath url)) = none →
      handleDownload fs Method.get url = (.err 404 "File not found", [downloadFullPath url]))
    ∧ (lookupFs fs (splitSegs (downloadFullPath url)) = some FsNode.dir →
        downloadFilePath url ≠ "/" →
      handleDownload fs Method.get url =
        (.redirect ("/?path=" ++ downloadFilePath url), [downloadFullPath url]))
    ∧ (∀ sz, lookupFs fs (splitSegs (downloadFullPath url)) = some (FsNode.file sz) →
        containsDotDot url = false → strHasSuf url "/index.html" = false →
      handleDownload fs Method.get url =
        (.fileBytes (downloadFullPath url) sz, [downloadFullPath url, downloadFullPath url]))
    ∧ (∀ sz, lookupFs fs (splitSegs (downloadFullPath url)) = some (FsNode.file sz) →
        containsDotDot url = false → strHasSuf url "/index.html" = true →
      handleDownload fs Method.get url =
        (.localRedirect "./", [downloadFullPath url, downloadFullPath url]))
    ∧ (lookupFs fs (splitSegs (downloadFullPath url)) = some FsNode.dir →
        downloadFilePath url = "/" →
        containsDotDot url = false → strHasSuf url "/index.html" = false →
        lookupFs fs (splitSegs (downloadFullPath url ++ "/index.html")) = none →
      handleDownload fs Method.get url =
        (.dirIndex (downloadFullPath url), [downloadFullPath url, downloadFullPath url]))
    ∧ (∀ sz, lookupFs fs (splitSegs (downloadFullPath url)) = some FsNode.dir →
        downloadFilePath url = "/" →
        containsDotDot url = false → strHasSuf url "/index.html" = false →
        lookupFs fs (splitSegs (downloadFullPath url ++ "/index.html")) = some (FsNode.file sz) →
      handleDownload fs Method.get url =
        (.fileBytes (downloadFullPath url ++ "/index.html") sz,
         [downloadFullPath url, downloadFullPath url])) := by
  refine ⟨?_, ?_, ?_, ?_, ?_, ?_⟩
  · intro hl
    simp only [handleDownload, h, hl]
    rw [if_neg (by simp), if_neg (by simp [hp])]
  · intro hl hne
    simp only [handleDownload, h, hl]
    rw [if_neg (by simp), if_neg (by simp [hp]), if_pos ⟨trivial, hne⟩]
  · intro sz hl hdd hsuf
    simp only [handleDownload, h, hl]
    rw [if_neg (by simp), if_neg (by simp [hp]),
      if_neg (fun hc => FsNode.noConfusion hc.1)]
    rw [serveFileModel.eq_def, if_neg (by simp [hdd]), if_neg (by simp [hsuf])]
  · intro sz hl hdd hsuf
    simp only [handleDownload, h, hl]
    rw [if_neg (by simp), if_neg (by simp [hp]),
      if_neg (fun hc => FsNode.noConfusion hc.1)]
    rw [serveFileModel.eq_def, if_neg (by simp [hdd]), if_pos hsuf]
  · intro hl heq hdd hsuf hix
    simp only [handleDownload, h, hl]
    rw [if_neg (by simp), if_neg (by simp [hp]), if_neg (fun hc => hc.2 heq)]
    rw [serveFileModel.eq_def, if_neg (by simp [hdd]), if_neg (by simp [hsuf]), hix]
  · intro sz hl heq hdd hsuf hix
    simp only [handleDownload, h, hl]
    rw [if_neg (by simp), if_neg (by simp [hp]), if_neg (fun hc => hc.2 heq)]
    rw [serveFileModel.eq_def, if_neg (by simp [hdd]), if_neg (by simp [hsuf]), hix]

/-- Witness for the amended C4: downloading an existing 10-byte file whose
URL does not end in /index.html streams its bytes. -/
theorem download_dispatch_cases_w :
    handleDownload
      [(["uploads", "docs", "a.txt"], FsNode.file 10), (["uploads", "docs"], FsNode.dir),
       (["uploads"], FsNode.dir)]
      Method.get "/download/docs/a.txt" =
      (.fileBytes "uploads/docs/a.txt" 10, ["uploads/docs/a.txt", "uploads/docs/a.txt"]) :=
  (download_dispatch_cases _ "/download/docs/a.txt" "docs/a.txt"
    (by decide) (by decide)).2.2.1 10 (by decide) (by decide) (by decide)

/-- C7: creating a directory that already exists succeeds without error —
after a successful mkdir the identical request again returns the same
success message and leaves the filesystem state unchanged. -/
theorem mkdir_idempotent (fs fs₁ : Fs) (b : MkdirBody) (msg : String) (tr : List String)
    (h : handleAPIMkdir fs Method.post (some b) = ⟨.msgOk msg, fs₁, tr⟩) :
    handleAPIMkdir fs₁ Method.post (some b) = ⟨.msgOk msg, fs₁, tr⟩ := by
  by_cases hn : b.name = ""
  · simp only [handleAPIMkdir, if_neg (show ¬(Method.post ≠ Method.post) by decide),
      if_pos hn] at h
    exact absurd h (by simp)
  · cases hrel : goRel uploadPath (mkdirFullPath b) with
    | none =>
      simp only [handleAPIMkdir, if_neg (show ¬(Method.post ≠ Method.post) by decide),
        if_neg hn, hrel] at h
      exact absurd h (by simp)
    | some r =>
      cases hpre : strHasPre r ".." with
      | true =>
        simp only [handleAPIMkdir, if_neg (show ¬(Method.post ≠ Method.post) by decide),
          if_neg hn, hrel, if_pos hpre] at h
        exact absurd h (by simp)
      | false =>
        cases hmk : mkdirAll fs (splitSegs (mkdirFullPath b)) with
        | none =>
          simp only [handleAPIMkdir, if_neg (show ¬(Method.post ≠ Method.post) by decide),
            if_neg hn, hrel, if_neg (show ¬(strHasPre r ".." = true) by simp [hpre]), hmk] at h
          exact absurd h (by simp)
        | some fs' =>
          simp only [handleAPIMkdir, if_neg (show ¬(Method.post ≠ Method.post) by decide),
            if_neg hn, hrel, if_neg (show ¬(strHasPre r ".." = true) by simp [hpre]), hmk] at h
          rw [HOut.mk.injEq] at h
          obtain ⟨h1, h2, h3⟩ := h
          subst h2
          simp only [handleAPIMkdir, if_neg (show ¬(Method.post ≠ Method.post) by decide),
            if_neg hn, hrel, if_neg (show ¬(strHasPre r ".." = true) by simp [hpre]),
            mkdirAll_idem fs fs' _ hmk, h1, h3]

/-- Witness for C7: repeating a successful mkdir of `docs` returns the same
success and does not change the filesystem. -/
theorem mkdir_idempotent_w :
    handleAPIMkdir [(["uploads", "docs"], FsNode.dir), (["uploads"], FsNode.dir)]
      Method.post (some ⟨"/", "docs"⟩) =
      ⟨.msgOk "Directory 'docs' created successfully",
       [(["uploads", "docs"], FsNode.dir), (["uploads"], FsNode.dir)], ["uploads/docs"]⟩ :=
  mkdir_idempotent [] _ ⟨"/", "docs"⟩ _ _ (by decide)

/-- C8 counterexample: the listing endpoint /api/files performs no method
check — a POST request is processed as a listing (ReadDir runs, response is
a 200 success), not answered with 405. -/
theorem files_endpoint_ignores_method :
    handleAPIFiles [] Method.post "" = (.filesOk "/" [], ["uploads"])
    ∧ (handleAPIFiles [] Method.post "").1 ≠ .err 405 "Method not allowed" := by
  constructor
  · decide
  · decide

/-- C8 (amended): the upload, mkdir and download handlers answer a request
with the wrong HTTP verb with status 405 and perform no filesystem
operation (state unchanged, no path touched); the listing endpoint
/api/files performs no method check at all — its behaviour is identical for
every verb, so a wrong-verb request is processed as a listing. -/
theorem wrong_verb_rejected (fs : Fs) (m : Method) (req : UploadRequest)
    (b? : Option MkdirBody) (url : String) (q : String) :
    (m ≠ Method.post → handleAPIUpload fs m req = ⟨.err 405 "Method not allowed", fs, []⟩)
    ∧ (m ≠ Method.post → handleAPIMkdir fs m b? = ⟨.err 405 "Method not allowed", fs, []⟩)
    ∧ (m ≠ Method.get → handleDownload fs m url = (.err 405 "Method not allowed", []))
    ∧ handleAPIFiles fs m q = handleAPIFiles fs Method.get q := by
  refine ⟨?_, ?_, ?_, rfl⟩
  · intro hm
    rw [handleAPIUpload.eq_def, if_pos hm]
  · intro hm
    rw [handleAPIMkdir.eq_def, if_pos hm]
  · intro hm
    rw [handleDownload.eq_def, if_pos hm]

/-- Witness for the amended C8: a PUT upload is answered 405 with no
filesystem effect. -/
theorem wrong_verb_rejected_w :
    handleAPIUpload [] Method.put ⟨0, true, "", none⟩ =
      ⟨.err 405 "Method not allowed", [], []⟩ :=
  (wrong_verb_rejected [] Method.put ⟨0, true, "", none⟩ none "/download/x" "").1 (by decide)

/-- C9 (code refutation): `ParseMultipartForm(32 << 20)` enforces no size
ceiling — its argument only bounds in-memory buffering, with larger file
parts spooled to temporary files. A well-formed upload stream of
32 MiB + 1 bytes, exceeding MaxUploadSize, parses successfully; the
handler then writes all of its bytes to uploads/big.bin and reports
success, where the claim requires rejection as a client error before any
bytes are written. -/
theorem oversized_upload_accepted :
    maxUploadSize < 33554433
    ∧ handleAPIUpload [] Method.post ⟨33554433, true, "", some ("big.bin", 33554433)⟩ =
      ⟨.msgOk "File uploaded successfully to /big.bin",
       [(["uploads", "big.bin"], FsNode.file 33554433), (["uploads"], FsNode.dir)],
       ["uploads", "uploads/big.bin"]⟩ := by
  refine ⟨by decide, by decide⟩

/-- C10: when an upload request parses as a multipart form but lacks the
'file' field, the handler returns client error 400, yet the directory chain
named by the 'path' field has already been created on disk before the field
is validated: the returned state is the post-MkdirAll state and contains
the target directory — the side effect persists. -/
theorem upload_missing_file_keeps_mkdir (fs fs₁ : Fs) (req : UploadRequest)
    (hw : req.wellFormed = true) (hs : req.bodySize ≤ maxUploadSize)
    (hf : req.filePart = none)
    (hm : mkdirAll fs (splitSegs (uploadFullDirPath req)) = some fs₁) :
    handleAPIUpload fs Method.post req =
      ⟨.err 400 "Failed to get file from form", fs₁, [uploadFullDirPath req]⟩
    ∧ lookupFs fs₁ (splitSegs (uploadFullDirPath req)) = some FsNode.dir := by
  constructor
  · have hp : parseMultipartFormOk 33554432 req = true := by
      rw [parseMultipartFormOk]
      exact hw
    have hnp : (!parseMultipartFormOk 33554432 req) = false := by
      rw [hp, Bool.not_true]
    rw [handleAPIUpload.eq_def, if_neg (show ¬(Method.post ≠ Method.post) by decide),
      if_neg (show ¬((!parseMultipartFormOk (32 <<< 20) req) = true) by simp [hnp])]
    simp only [hm, hf]
  · exact mkdirAll_lookup fs fs₁ _ hm (splitSegs_ne_nil _)

/-- Witness for C10: uploading with path=/newdir and no file part creates
uploads/newdir, which persists in the returned state alongside the 400
error. -/
theorem upload_missing_file_keeps_mkdir_w :
    handleAPIUpload [] Method.post ⟨4, true, "/newdir", none⟩ =
      ⟨.err 400 "Failed to get file from form",
       [(["uploads", "newdir"], FsNode.dir), (["uploads"], FsNode.dir)], ["uploads/newdir"]⟩ :=
  (upload_missing_file_keeps_mkdir [] _ _ (by decide) (by decide) (by decide) (by decide)).1

/-- C1 (code refutation): the upload handler performs no confinement check.
With form field path=../../evil and a 1-byte file a.txt, it calls MkdirAll
on ../evil — outside StorageRoot — creates that directory chain, writes
../evil/a.txt there, and reports success, where the claim requires such a
request to be rejected as a client error before any filesystem
operation. -/
theorem upload_traversal_escapes_root :
    handleAPIUpload [] Method.post ⟨1, true, "../../evil", some ("a.txt", 1)⟩ =
      ⟨.msgOk "File uploaded successfully to ../../evil/a.txt",
       [(["..", "evil", "a.txt"], FsNode.file 1), (["..", "evil"], FsNode.dir),
        ([".."], FsNode.dir)],
       ["../evil", "../evil/a.txt"]⟩
    ∧ withinRootB "../evil" = false ∧ withinRootB "../evil/a.txt" = false := by
  refine ⟨by decide, by decide, by decide⟩
